import Mathlib

/-!
Verification of the algebra_h repository.

The development shallowly embeds the C++ sources:
* `src/matrix.h` — the `matrix<T>` container with Gauss–Jordan `inverse()`
  and `determinant()`;
* `src/gauss.h` — the linear-system solver `gauss(A, Y)`;
* `src/fft.h` — the iterative in-place `FFT` with its static root cache.

Machine integers (`size_t`) are modelled as `ℕ`, with the one place where
unsigned wraparound matters (`rows() - 1` in `determinant`) made explicit
through `sizeTSub`.  The numeric type `T = T1` (`long double` at every call
site of the repository) is idealised as a `Field K`; concrete claims are
evaluated at `K = ℚ`, and the FFT operand type `std::complex<long double>`
as `ℂ` with exact `Real.cos`/`Real.sin`.
-/

namespace AlgebraH

open Complex

/-- `size_t` subtraction with 64-bit wraparound: models `a - b` where `a`, `b`
are `size_t` values (used for the loop bound `rows() - 1` in `determinant`). -/
def sizeTSub (a b : ℕ) : ℕ :=
  (a + 2 ^ 64 - b) % 2 ^ 64

/-- Point update of a two-index entry function: models writing
`data[r][c] = v` through `matrix::operator()(r, c)`. -/
def upd {K : Type*} (A : ℕ → ℕ → K) (r c : ℕ) (v : K) : ℕ → ℕ → K :=
  fun x y => if x = r ∧ y = c then v else A x y

/-- The matrix data model of `matrix.h`: `data` is a rectangular
`std::vector` of rows; `rows()`/`columns()` are its dimensions and `entry`
the contents (entries outside the `rows × cols` grid are unobservable in the
C++ object and are irrelevant junk here). -/
structure Mat (K : Type*) where
  rows : ℕ
  cols : ℕ
  entry : ℕ → ℕ → K

/-- The errors of `matrix.h`: a failed `assert` (process abort) and the
`degenerate_matrix_error` exception thrown by `inverse()`. -/
inductive MatErr where
  | assertFail : MatErr
  | degenerate : MatErr
deriving DecidableEq

variable {K : Type*} [Field K] [DecidableEq K]

/-- `matrix<T>::identity(N)`: an `N × N` matrix built as `matrix(N, N, 0)`
followed by the loop setting `ret(i,i) = 1` for `i < N`. -/
def matIdentity (K : Type*) [Field K] (N : ℕ) : Mat K :=
  ⟨N, N, fun x y => if x = y ∧ x < N then 1 else 0⟩

/-- `matrix<T>::operator*(m)`: asserts `columns() == m.rows()`, then builds
`ret = matrix(rows(), m.columns(), 0)` and accumulates
`ret(i,j) += data[i][k] * m(k,j)` over `i < rows()`, `k < columns()`,
`j < m.columns()` (the source's `i,k,j` loop order only reorders the
summands of the same sum). -/
def matMul (A B : Mat K) : Except MatErr (Mat K) :=
  if A.cols = B.rows then
    .ok ⟨A.rows, B.cols, fun i j =>
      if i < A.rows ∧ j < B.cols then
        ∑ k ∈ Finset.range A.cols, A.entry i k * B.entry k j
      else 0⟩
  else .error .assertFail

/-- The pivot search `for(j = i; j < rows() && tmp(j,i) == T1(0); ++j);`
shared by `inverse()` and `determinant()`: returns the final value of `j`. -/
def pivotScan (tmp : ℕ → ℕ → K) (rows i j : ℕ) : ℕ :=
  if h : j < rows ∧ tmp j i = 0 then pivotScan tmp rows i (j + 1) else j
termination_by rows - j
decreasing_by omega

/-- The row-swap loop `for(k = start; k < bound; ++k) swap(A(i,k), A(j,k))`
used (with `start = i`) on `tmp` and on `ret` by `inverse()` and on `tmp` by
`determinant()`. -/
def rowSwapFrom (A : ℕ → ℕ → K) (i j k bound : ℕ) : ℕ → ℕ → K :=
  if h : k < bound then
    rowSwapFrom (upd (upd A i k (A j k)) j k (A i k)) i j (k + 1) bound
  else A
termination_by bound - k
decreasing_by omega

/-- The normalisation loop of `inverse()`:
`for(j = 0; j < columns(); ++j) { if(j == i) continue;`
`tmp(i,j) /= tmp(i,i); ret(i,j) /= tmp(i,i); }` on the pair
`tr = (tmp, ret)`, with `j` running from the given start. -/
def normLoop (i j bound : ℕ) (tr : (ℕ → ℕ → K) × (ℕ → ℕ → K)) :
    (ℕ → ℕ → K) × (ℕ → ℕ → K) :=
  if h : j < bound then
    if j = i then normLoop i (j + 1) bound tr
    else
      normLoop i (j + 1) bound
        (upd tr.1 i j (tr.1 i j / tr.1 i i), upd tr.2 i j (tr.2 i j / tr.1 i i))
  else tr
termination_by bound - j
decreasing_by all_goals omega

/-- The inner elimination loop of `inverse()` for a fixed row `j ≠ i`, with
`entry = tmp(j,i)` saved before the loop:
`for(k = 0; k < columns(); ++k) { tmp(j,k) -= (tmp(i,k)/tmp(i,i))*entry;`
`ret(j,k) -= (ret(i,k)/tmp(i,i))*entry; }` on the pair `tr = (tmp, ret)`. -/
def elimKLoop (i j : ℕ) (entry : K) (k bound : ℕ)
    (tr : (ℕ → ℕ → K) × (ℕ → ℕ → K)) : (ℕ → ℕ → K) × (ℕ → ℕ → K) :=
  if h : k < bound then
    elimKLoop i j entry (k + 1) bound
      (upd tr.1 j k (tr.1 j k - tr.1 i k / tr.1 i i * entry),
       upd tr.2 j k (tr.2 j k - tr.2 i k / tr.1 i i * entry))
  else tr
termination_by bound - k
decreasing_by omega

/-- The outer elimination loop of `inverse()`:
`for(j = 0; j < rows(); ++j) { if(j == i) continue; entry = tmp(j,i); ... }`. -/
def elimJLoop (i j rows cols : ℕ) (tr : (ℕ → ℕ → K) × (ℕ → ℕ → K)) :
    (ℕ → ℕ → K) × (ℕ → ℕ → K) :=
  if h : j < rows then
    if j = i then elimJLoop i (j + 1) rows cols tr
    else elimJLoop i (j + 1) rows cols (elimKLoop i j (tr.1 j i) 0 cols tr)
  else tr
termination_by rows - j
decreasing_by all_goals omega

/-- One pivot step of `matrix::inverse()` after a successful pivot search,
on the pair `(tmp, ret)`: the row swap of `tmp` and `ret` for columns
`k ≥ i` when `i != j`, the normalisation of row `i` (then
`ret(i,i) /= tmp(i,i); tmp(i,i) = 1;`), and the elimination of column `i`
from every other row. -/
def invStepPair (rows cols i : ℕ) (tmp ret : ℕ → ℕ → K) :
    (ℕ → ℕ → K) × (ℕ → ℕ → K) :=
  let j := pivotScan tmp rows i i
  let tmp1 := if i ≠ j then rowSwapFrom tmp i j i cols else tmp
  let ret1 := if i ≠ j then rowSwapFrom ret i j i cols else ret
  let tr2 := normLoop i 0 cols (tmp1, ret1)
  let ret3 := upd tr2.2 i i (tr2.2 i i / tr2.1 i i)
  let tmp3 := upd tr2.1 i i 1
  elimJLoop i 0 rows cols (tmp3, ret3)

/-- The main loop of `matrix::inverse()` from pivot index `i`, acting on the
working copy `tmp` and the accumulator `ret`.  Per step: first-nonzero pivot
search (throwing `degenerate_matrix_error` when it reaches `rows()`), then
the swap/normalise/eliminate step `invStepPair`. -/
def invLoop (rows cols i : ℕ) (tmp ret : ℕ → ℕ → K) :
    Except MatErr (ℕ → ℕ → K) :=
  if h : i < rows then
    if pivotScan tmp rows i i = rows then .error .degenerate
    else
      invLoop rows cols (i + 1) (invStepPair rows cols i tmp ret).1
        (invStepPair rows cols i tmp ret).2
  else .ok ret
termination_by rows - i
decreasing_by omega

/-- `matrix<T>::inverse<T1>()` (at `T1 = T`, the only instantiation that
compiles): asserts squareness, runs the Gauss–Jordan loop on
`tmp = matrix(*this)` and `ret = identity(rows())`, and returns `ret`. -/
def matInverse (M : Mat K) : Except MatErr (Mat K) :=
  if M.rows = M.cols then
    (invLoop M.rows M.cols 0 M.entry (matIdentity K M.rows).entry).map
      (fun ret => ⟨M.rows, M.rows, ret⟩)
  else .error .assertFail

/-- The inner elimination loop of `determinant()` for a fixed row `j > i`,
with `entry = tmp(j,i)` saved before the loop:
`for(k = i; k < columns(); ++k) tmp(j,k) -= (tmp(i,k)/tmp(i,i))*entry;`. -/
def detElimK (i j : ℕ) (entry : K) (k bound : ℕ) (tmp : ℕ → ℕ → K) :
    ℕ → ℕ → K :=
  if h : k < bound then
    detElimK i j entry (k + 1) bound
      (upd tmp j k (tmp j k - tmp i k / tmp i i * entry))
  else tmp
termination_by bound - k
decreasing_by omega

/-- The outer elimination loop of `determinant()`:
`for(j = i + 1; j < rows(); ++j) { entry = tmp(j,i); ... }`. -/
def detElimJ (i j rows cols : ℕ) (tmp : ℕ → ℕ → K) : ℕ → ℕ → K :=
  if h : j < rows then
    detElimJ i (j + 1) rows cols (detElimK i j (tmp j i) i cols tmp)
  else tmp
termination_by rows - j
decreasing_by omega

/-- The closing product `for(i = 0; i < rows(); ++i) res *= tmp(i,i);` of
`determinant()`, starting from `res = 1`. -/
def diagProd (tmp : ℕ → ℕ → K) : ℕ → K
  | 0 => 1
  | n + 1 => diagProd tmp n * tmp n n

/-- One pivot step of `matrix::determinant()` after a successful pivot
search: the row swap of `tmp` for columns `k ≥ i` when `i != j`, then the
elimination of column `i` from the rows below the pivot only.  The `size_t`
loop bound `bound = rows() - 1` of the enclosing loop is wrap-around
subtraction, passed explicitly to `detLoop`. -/
def detStepTmp (rows cols i : ℕ) (tmp : ℕ → ℕ → K) : ℕ → ℕ → K :=
  let j := pivotScan tmp rows i i
  let tmp1 := if i ≠ j then rowSwapFrom tmp i j i cols else tmp
  detElimJ i (i + 1) rows cols tmp1

/-- The main loop of `matrix::determinant()` (see `matDeterminant`): per
step, the first-nonzero pivot search (returning `0` when it reaches
`rows()`), the swap/eliminate step `detStepTmp`, and the sign-flag flip on
a swap.  After the loop the result is `b ? -res : res` for `res` the
product of the diagonal. -/
def detLoop (rows cols bound i : ℕ) (tmp : ℕ → ℕ → K) (b : Bool) : K :=
  if h : i < bound then
    if pivotScan tmp rows i i = rows then 0
    else
      detLoop rows cols bound (i + 1) (detStepTmp rows cols i tmp)
        (if i ≠ pivotScan tmp rows i i then !b else b)
  else
    if b then -(diagProd tmp rows) else diagProd tmp rows
termination_by bound - i
decreasing_by omega

/-- `matrix<T>::determinant<T1>()` (at `T1 = T`): asserts squareness and runs
the forward-elimination loop on `tmp = matrix(*this)` with the unsigned loop
bound `rows() - 1`. -/
def matDeterminant (M : Mat K) : Except MatErr K :=
  if M.rows = M.cols then
    .ok (detLoop M.rows M.cols (sizeTSub M.rows 1) 0 M.entry false)
  else .error .assertFail


lemma pivotScan_ge (tmp : ℕ → ℕ → K) (rows i j : ℕ) : j ≤ pivotScan tmp rows i j := by
  induction j using pivotScan.induct tmp rows i with
  | case1 j h ih =>
      rw [pivotScan, dif_pos h]
      exact Nat.le_of_succ_le ih
  | case2 j h =>
      rw [pivotScan, dif_neg h]

lemma pivotScan_le (tmp : ℕ → ℕ → K) (rows i : ℕ) :
    ∀ j, j ≤ rows → pivotScan tmp rows i j ≤ rows := by
  intro j
  induction j using pivotScan.induct tmp rows i with
  | case1 j h ih =>
      intro _
      rw [pivotScan, dif_pos h]
      exact ih h.1
  | case2 j h =>
      intro hj
      rw [pivotScan, dif_neg h]
      exact hj

lemma pivotScan_zero_before (tmp : ℕ → ℕ → K) (rows i : ℕ) :
    ∀ j m, j ≤ m → m < pivotScan tmp rows i j → tmp m i = 0 := by
  intro j
  induction j using pivotScan.induct tmp rows i with
  | case1 j h ih =>
      intro m hm hm2
      rw [pivotScan, dif_pos h] at hm2
      rcases Nat.eq_or_lt_of_le hm with rfl | hlt
      · exact h.2
      · exact ih m hlt hm2
  | case2 j h =>
      intro m hm hm2
      rw [pivotScan, dif_neg h] at hm2
      omega

lemma pivotScan_found (tmp : ℕ → ℕ → K) (rows i : ℕ) :
    ∀ j, pivotScan tmp rows i j < rows → tmp (pivotScan tmp rows i j) i ≠ 0 := by
  intro j
  induction j using pivotScan.induct tmp rows i with
  | case1 j hc ih =>
      rw [pivotScan, dif_pos hc]
      exact ih
  | case2 j hc =>
      rw [pivotScan, dif_neg hc]
      intro h h0
      exact hc ⟨h, h0⟩

lemma pivotScan_congr (tmp tmp2 : ℕ → ℕ → K) (rows i : ℕ) :
    ∀ j, (∀ m, j ≤ m → tmp m i = tmp2 m i) →
    pivotScan tmp rows i j = pivotScan tmp2 rows i j := by
  intro j
  induction j using pivotScan.induct tmp rows i with
  | case1 j h ih =>
      intro hagree
      have h2 : j < rows ∧ tmp2 j i = 0 := ⟨h.1, by rw [← hagree j le_rfl]; exact h.2⟩
      conv_lhs => rw [pivotScan, dif_pos h]
      conv_rhs => rw [pivotScan, dif_pos h2]
      exact ih fun m hm => hagree m (by omega)
  | case2 j h =>
      intro hagree
      have h2 : ¬(j < rows ∧ tmp2 j i = 0) := by
        intro hc
        exact h ⟨hc.1, by rw [hagree j le_rfl]; exact hc.2⟩
      conv_lhs => rw [pivotScan, dif_neg h]
      conv_rhs => rw [pivotScan, dif_neg h2]

lemma pivotScan_step (tmp : ℕ → ℕ → K) (rows i j : ℕ) (h1 : j < rows)
    (h2 : tmp j i = 0) : pivotScan tmp rows i j = pivotScan tmp rows i (j + 1) := by
  rw [pivotScan, dif_pos ⟨h1, h2⟩]

lemma pivotScan_stop (tmp : ℕ → ℕ → K) (rows i j : ℕ)
    (h : ¬(j < rows ∧ tmp j i = 0)) : pivotScan tmp rows i j = j := by
  rw [pivotScan, dif_neg h]

lemma upd_apply (A : ℕ → ℕ → K) (r c : ℕ) (v : K) (x y : ℕ) :
    upd A r c v x y = if x = r ∧ y = c then v else A x y := rfl

lemma rowSwapFrom_apply (A : ℕ → ℕ → K) (i j k bound : ℕ) (x y : ℕ) :
    rowSwapFrom A i j k bound x y =
      if k ≤ y ∧ y < bound then
        if x = i then A j y else if x = j then A i y else A x y
      else A x y := by
  induction A, i, j, k, bound using rowSwapFrom.induct with
  | case1 A i j k bound h ih =>
      rw [rowSwapFrom, dif_pos h, ih]
      by_cases hyk : y = k
      · have c1 : ¬(k + 1 ≤ y ∧ y < bound) := by omega
        have c2 : k ≤ y ∧ y < bound := by omega
        rw [if_neg c1, if_pos c2]
        simp only [upd_apply, hyk, eq_self_iff_true, and_true, and_false, true_and, if_false]
        by_cases hxi : x = i <;> by_cases hxj : x = j
        · have hij : i = j := hxi.symm.trans hxj
          rw [if_pos hxj, if_pos hxi, hij]
        · rw [if_neg hxj, if_pos hxi, if_pos hxi]
        · rw [if_pos hxj, if_neg hxi, if_pos hxj]
        · rw [if_neg hxj, if_neg hxi, if_neg hxi, if_neg hxj]
      · simp only [upd_apply, hyk, and_false, if_false]
        have hc : (k + 1 ≤ y ∧ y < bound) ↔ (k ≤ y ∧ y < bound) := by omega
        by_cases hin : k ≤ y ∧ y < bound
        · simp only [if_pos hin, if_pos (hc.mpr hin)]
        · simp only [if_neg hin, if_neg (fun hh => hin (hc.mp hh))]
  | case2 A i j k bound h =>
      rw [rowSwapFrom, dif_neg h]
      have c2 : ¬(k ≤ y ∧ y < bound) := by omega
      simp only [c2, if_false]

lemma normLoop_fst (i j bound : ℕ) (tr : (ℕ → ℕ → K) × (ℕ → ℕ → K)) (x y : ℕ) :
    (normLoop i j bound tr).1 x y =
      if x = i ∧ j ≤ y ∧ y < bound ∧ y ≠ i then tr.1 i y / tr.1 i i else tr.1 x y := by
  induction j, bound, tr using normLoop.induct i with
  | x_1 => infer_instance
  | case1 bound tr h ih =>
      rw [normLoop, dif_pos h, if_pos rfl, ih]
      have hiff : ∀ c : Prop, (c ∧ i + 1 ≤ y ∧ y < bound ∧ y ≠ i) ↔ (c ∧ i ≤ y ∧ y < bound ∧ y ≠ i) := by
        intro c
        constructor
        · rintro ⟨h1, h2, h3, h4⟩
          exact ⟨h1, by omega, h3, h4⟩
        · rintro ⟨h1, h2, h3, h4⟩
          exact ⟨h1, by omega, h3, h4⟩
      simp only [hiff]
  | case2 j bound tr h hji ih =>
      rw [normLoop, dif_pos h, if_neg hji]
      refine ih.trans ?_
      simp only [upd_apply]
      by_cases hyj : y = j
      · have c1 : ¬(x = i ∧ j + 1 ≤ y ∧ y < bound ∧ y ≠ i) := by
          rintro ⟨-, hy, -, -⟩
          omega
        rw [if_neg c1]
        have hyi : ¬(y = i) := fun hc => hji (hyj ▸ hc ▸ rfl)
        have c2 : (x = i ∧ j ≤ y ∧ y < bound ∧ y ≠ i) ↔ x = i := by
          constructor
          · exact fun hc => hc.1
          · exact fun hc => ⟨hc, by omega, by omega, hyi⟩
        simp only [c2]
        simp only [hyj, eq_self_iff_true, and_true]
      · have e0 : (True ∧ y = j) = False := by
          simp [hyj]
        have hij : ¬i = j := fun hc => hji hc.symm
        have e1 : (True ∧ i = j) = False := by
          simp [hij]
        have e2 : (x = i ∧ y = j) = False := by
          simp [hyj]
        simp only [eq_self_iff_true, e0, e1, e2, if_false]
        have hiff : (x = i ∧ j + 1 ≤ y ∧ y < bound ∧ y ≠ i) ↔ (x = i ∧ j ≤ y ∧ y < bound ∧ y ≠ i) := by
          constructor
          · rintro ⟨h1, h2, h3, h4⟩
            exact ⟨h1, by omega, h3, h4⟩
          · rintro ⟨h1, h2, h3, h4⟩
            refine ⟨h1, by omega, h3, h4⟩
        simp only [hiff]
  | case3 j bound tr h =>
      rw [normLoop, dif_neg h]
      have c : ¬(x = i ∧ j ≤ y ∧ y < bound ∧ y ≠ i) := by
        rintro ⟨-, h1, h2, -⟩
        omega
      rw [if_neg c]


lemma normLoop_snd (i j bound : ℕ) (tr : (ℕ → ℕ → K) × (ℕ → ℕ → K)) (x y : ℕ) :
    (normLoop i j bound tr).2 x y =
      if x = i ∧ j ≤ y ∧ y < bound ∧ y ≠ i then tr.2 i y / tr.1 i i else tr.2 x y := by
  induction j, bound, tr using normLoop.induct i with
  | x_1 => infer_instance
  | case1 bound tr h ih =>
      rw [normLoop, dif_pos h, if_pos rfl]
      refine ih.trans ?_
      have hiff : ∀ c : Prop, (c ∧ i + 1 ≤ y ∧ y < bound ∧ y ≠ i) ↔ (c ∧ i ≤ y ∧ y < bound ∧ y ≠ i) := by
        intro c
        constructor
        · rintro ⟨h1, h2, h3, h4⟩
          exact ⟨h1, by omega, h3, h4⟩
        · rintro ⟨h1, h2, h3, h4⟩
          exact ⟨h1, by omega, h3, h4⟩
      simp only [hiff]
  | case2 j bound tr h hji ih =>
      rw [normLoop, dif_pos h, if_neg hji]
      refine ih.trans ?_
      simp only [upd_apply]
      by_cases hyj : y = j
      · have c1 : ¬(x = i ∧ j + 1 ≤ y ∧ y < bound ∧ y ≠ i) := by
          rintro ⟨-, hy, -, -⟩
          omega
        rw [if_neg c1]
        have hyi : ¬(y = i) := fun hc => hji (hyj ▸ hc ▸ rfl)
        have c2 : (x = i ∧ j ≤ y ∧ y < bound ∧ y ≠ i) ↔ x = i := by
          constructor
          · exact fun hc => hc.1
          · exact fun hc => ⟨hc, by omega, by omega, hyi⟩
        simp only [c2]
        simp only [hyj, eq_self_iff_true, and_true]
      · have e0 : (True ∧ y = j) = False := by
          simp [hyj]
        have hij : ¬i = j := fun hc => hji hc.symm
        have e1 : (True ∧ i = j) = False := by
          simp [hij]
        have e2 : (x = i ∧ y = j) = False := by
          simp [hyj]
        simp only [eq_self_iff_true, e0, e1, e2, if_false]
        have hiff : (x = i ∧ j + 1 ≤ y ∧ y < bound ∧ y ≠ i) ↔ (x = i ∧ j ≤ y ∧ y < bound ∧ y ≠ i) := by
          constructor
          · rintro ⟨h1, h2, h3, h4⟩
            exact ⟨h1, by omega, h3, h4⟩
          · rintro ⟨h1, h2, h3, h4⟩
            refine ⟨h1, by omega, h3, h4⟩
        simp only [hiff]
  | case3 j bound tr h =>
      rw [normLoop, dif_neg h]
      have c : ¬(x = i ∧ j ≤ y ∧ y < bound ∧ y ≠ i) := by
        rintro ⟨-, h1, h2, -⟩
        omega
      rw [if_neg c]

lemma elimKLoop_fst (i j : ℕ) (hij : ¬i = j) (entry : K) (k bound : ℕ)
    (tr : (ℕ → ℕ → K) × (ℕ → ℕ → K)) (x y : ℕ) :
    (elimKLoop i j entry k bound tr).1 x y =
      if x = j ∧ k ≤ y ∧ y < bound then tr.1 j y - tr.1 i y / tr.1 i i * entry
      else tr.1 x y := by
  induction k, bound, tr using elimKLoop.induct i j entry with
  | case1 k bound tr h ih =>
      rw [elimKLoop, dif_pos h]
      refine ih.trans ?_
      simp only [upd_apply]
      have ei1 : (i = j ∧ y = k) = False := by
        simp [hij]
      have ei2 : (i = j ∧ i = k) = False := by
        simp [hij]
      simp only [eq_self_iff_true, true_and, and_true, ei1, ei2, if_false]
      by_cases hyk : y = k
      · have c1 : ¬(x = j ∧ k + 1 ≤ y ∧ y < bound) := by
          rintro ⟨-, hy, -⟩
          omega
        rw [if_neg c1]
        have c2 : (x = j ∧ k ≤ y ∧ y < bound) ↔ x = j := by
          constructor
          · exact fun hc => hc.1
          · exact fun hc => ⟨hc, by omega, by omega⟩
        simp only [c2]
        simp only [hyk, eq_self_iff_true, and_true]
      · have e2 : (x = j ∧ y = k) = False := by
          simp [hyk]
        have e3 : (j = j ∧ y = k) = False := by
          simp [hyk]
        simp only [e2, e3, eq_self_iff_true, true_and, hyk, and_false, if_false]
        have hiff : (x = j ∧ k + 1 ≤ y ∧ y < bound) ↔ (x = j ∧ k ≤ y ∧ y < bound) := by
          constructor
          · rintro ⟨h1, h2, h3⟩
            exact ⟨h1, by omega, h3⟩
          · rintro ⟨h1, h2, h3⟩
            exact ⟨h1, by omega, h3⟩
        simp only [hiff]
  | case2 k bound tr h =>
      rw [elimKLoop, dif_neg h]
      have c : ¬(x = j ∧ k ≤ y ∧ y < bound) := by
        rintro ⟨-, h1, h2⟩
        omega
      rw [if_neg c]

lemma elimKLoop_snd (i j : ℕ) (hij : ¬i = j) (entry : K) (k bound : ℕ)
    (tr : (ℕ → ℕ → K) × (ℕ → ℕ → K)) (x y : ℕ) :
    (elimKLoop i j entry k bound tr).2 x y =
      if x = j ∧ k ≤ y ∧ y < bound then tr.2 j y - tr.2 i y / tr.1 i i * entry
      else tr.2 x y := by
  induction k, bound, tr using elimKLoop.induct i j entry with
  | case1 k bound tr h ih =>
      rw [elimKLoop, dif_pos h]
      refine ih.trans ?_
      simp only [upd_apply]
      have ei1 : (i = j ∧ y = k) = False := by
        simp [hij]
      have ei2 : (i = j ∧ i = k) = False := by
        simp [hij]
      simp only [eq_self_iff_true, true_and, and_true, ei1, ei2, if_false]
      by_cases hyk : y = k
      · have c1 : ¬(x = j ∧ k + 1 ≤ y ∧ y < bound) := by
          rintro ⟨-, hy, -⟩
          omega
        rw [if_neg c1]
        have c2 : (x = j ∧ k ≤ y ∧ y < bound) ↔ x = j := by
          constructor
          · exact fun hc => hc.1
          · exact fun hc => ⟨hc, by omega, by omega⟩
        simp only [c2]
        simp only [hyk, eq_self_iff_true, and_true]
      · have e2 : (x = j ∧ y = k) = False := by
          simp [hyk]
        have e3 : (j = j ∧ y = k) = False := by
          simp [hyk]
        simp only [e2, e3, eq_self_iff_true, true_and, hyk, and_false, if_false]
        have hiff : (x = j ∧ k + 1 ≤ y ∧ y < bound) ↔ (x = j ∧ k ≤ y ∧ y < bound) := by
          constructor
          · rintro ⟨h1, h2, h3⟩
            exact ⟨h1, by omega, h3⟩
          · rintro ⟨h1, h2, h3⟩
            exact ⟨h1, by omega, h3⟩
        simp only [hiff]
  | case2 k bound tr h =>
      rw [elimKLoop, dif_neg h]
      have c : ¬(x = j ∧ k ≤ y ∧ y < bound) := by
        rintro ⟨-, h1, h2⟩
        omega
      rw [if_neg c]


lemma detElimK_apply (i j : ℕ) (hij : ¬i = j) (entry : K) (k bound : ℕ)
    (tmp : ℕ → ℕ → K) (x y : ℕ) :
    detElimK i j entry k bound tmp x y =
      if x = j ∧ k ≤ y ∧ y < bound then tmp j y - tmp i y / tmp i i * entry
      else tmp x y := by
  induction k, bound, tmp using detElimK.induct i j entry with
  | case1 k bound tmp h ih =>
      rw [detElimK, dif_pos h]
      refine ih.trans ?_
      simp only [upd_apply]
      have ei1 : (i = j ∧ y = k) = False := by
        simp [hij]
      have ei2 : (i = j ∧ i = k) = False := by
        simp [hij]
      simp only [eq_self_iff_true, true_and, and_true, ei1, ei2, if_false]
      by_cases hyk : y = k
      · have c1 : ¬(x = j ∧ k + 1 ≤ y ∧ y < bound) := by
          rintro ⟨-, hy, -⟩
          omega
        rw [if_neg c1]
        have c2 : (x = j ∧ k ≤ y ∧ y < bound) ↔ x = j := by
          constructor
          · exact fun hc => hc.1
          · exact fun hc => ⟨hc, by omega, by omega⟩
        simp only [c2]
        simp only [hyk, eq_self_iff_true, and_true]
      · have e2 : (x = j ∧ y = k) = False := by
          simp [hyk]
        have e3 : (j = j ∧ y = k) = False := by
          simp [hyk]
        simp only [e2, e3, eq_self_iff_true, true_and, hyk, and_false, if_false]
        have hiff : (x = j ∧ k + 1 ≤ y ∧ y < bound) ↔ (x = j ∧ k ≤ y ∧ y < bound) := by
          constructor
          · rintro ⟨h1, h2, h3⟩
            exact ⟨h1, by omega, h3⟩
          · rintro ⟨h1, h2, h3⟩
            exact ⟨h1, by omega, h3⟩
        simp only [hiff]
  | case2 k bound tmp h =>
      rw [detElimK, dif_neg h]
      have c : ¬(x = j ∧ k ≤ y ∧ y < bound) := by
        rintro ⟨-, h1, h2⟩
        omega
      rw [if_neg c]

lemma elimJLoop_fst (i j rows cols : ℕ) (tr : (ℕ → ℕ → K) × (ℕ → ℕ → K)) (x y : ℕ) :
    (elimJLoop i j rows cols tr).1 x y =
      if ¬x = i ∧ j ≤ x ∧ x < rows ∧ y < cols then
        tr.1 x y - tr.1 i y / tr.1 i i * tr.1 x i
      else tr.1 x y := by
  induction j, rows, cols, tr using elimJLoop.induct i with
  | x_1 => infer_instance
  | case1 rows cols tr h ih =>
      rw [elimJLoop, dif_pos h, if_pos rfl]
      refine ih.trans ?_
      have hiff : (¬x = i ∧ i + 1 ≤ x ∧ x < rows ∧ y < cols) ↔
          (¬x = i ∧ i ≤ x ∧ x < rows ∧ y < cols) := by
        omega
      simp only [hiff]
  | case2 j rows cols tr h hji ih =>
      rw [elimJLoop, dif_pos h, if_neg hji]
      refine ih.trans ?_
      have hij : ¬i = j := fun hc => hji hc.symm
      simp only [elimKLoop_fst i j hij]
      by_cases hxj : x = j
      · have c1 : ¬(¬x = i ∧ j + 1 ≤ x ∧ x < rows ∧ y < cols) := by
          rintro ⟨-, hx, -, -⟩
          omega
        rw [if_neg c1]
        have hxi : ¬x = i := fun hc => hji (hxj ▸ hc ▸ rfl)
        have c2 : (¬x = i ∧ j ≤ x ∧ x < rows ∧ y < cols) ↔ y < cols := by
          constructor
          · exact fun hc => hc.2.2.2
          · exact fun hc => ⟨hxi, by omega, by omega, hc⟩
        simp only [c2]
        have e1 : (x = j ∧ 0 ≤ y ∧ y < cols) ↔ y < cols := by
          constructor
          · exact fun hc => hc.2.2
          · exact fun hc => ⟨hxj, by omega, hc⟩
        simp only [e1, hxj]
        have hy0 : (True ∧ 0 ≤ y ∧ y < cols) ↔ y < cols := by
          simp
        simp only [hy0]
      · have e1 : (x = j ∧ 0 ≤ y ∧ y < cols) = False := by
          simp [hxj]
        have e2 : (x = j ∧ 0 ≤ i ∧ i < cols) = False := by
          simp [hxj]
        have e3 : (i = j ∧ 0 ≤ y ∧ y < cols) = False := by
          simp [hij]
        have e4 : (i = j ∧ 0 ≤ i ∧ i < cols) = False := by
          simp [hij]
        simp only [e1, e2, e3, e4, if_false]
        have hiff : (¬x = i ∧ j + 1 ≤ x ∧ x < rows ∧ y < cols) ↔
            (¬x = i ∧ j ≤ x ∧ x < rows ∧ y < cols) := by
          omega
        simp only [hiff]
  | case3 j rows cols tr h =>
      rw [elimJLoop, dif_neg h]
      have c : ¬(¬x = i ∧ j ≤ x ∧ x < rows ∧ y < cols) := by
        rintro ⟨-, h1, h2, -⟩
        omega
      rw [if_neg c]

lemma elimJLoop_snd (i j rows cols : ℕ) (tr : (ℕ → ℕ → K) × (ℕ → ℕ → K)) (x y : ℕ) :
    (elimJLoop i j rows cols tr).2 x y =
      if ¬x = i ∧ j ≤ x ∧ x < rows ∧ y < cols then
        tr.2 x y - tr.2 i y / tr.1 i i * tr.1 x i
      else tr.2 x y := by
  induction j, rows, cols, tr using elimJLoop.induct i with
  | x_1 => infer_instance
  | case1 rows cols tr h ih =>
      rw [elimJLoop, dif_pos h, if_pos rfl]
      refine ih.trans ?_
      have hiff : (¬x = i ∧ i + 1 ≤ x ∧ x < rows ∧ y < cols) ↔
          (¬x = i ∧ i ≤ x ∧ x < rows ∧ y < cols) := by
        omega
      simp only [hiff]
  | case2 j rows cols tr h hji ih =>
      rw [elimJLoop, dif_pos h, if_neg hji]
      refine ih.trans ?_
      have hij : ¬i = j := fun hc => hji hc.symm
      simp only [elimKLoop_fst i j hij, elimKLoop_snd i j hij]
      by_cases hxj : x = j
      · have c1 : ¬(¬x = i ∧ j + 1 ≤ x ∧ x < rows ∧ y < cols) := by
          rintro ⟨-, hx, -, -⟩
          omega
        rw [if_neg c1]
        have hxi : ¬x = i := fun hc => hji (hxj ▸ hc ▸ rfl)
        have c2 : (¬x = i ∧ j ≤ x ∧ x < rows ∧ y < cols) ↔ y < cols := by
          constructor
          · exact fun hc => hc.2.2.2
          · exact fun hc => ⟨hxi, by omega, by omega, hc⟩
        simp only [c2]
        have e1 : (x = j ∧ 0 ≤ y ∧ y < cols) ↔ y < cols := by
          constructor
          · exact fun hc => hc.2.2
          · exact fun hc => ⟨hxj, by omega, hc⟩
        simp only [e1, hxj]
        have hy0 : (True ∧ 0 ≤ y ∧ y < cols) ↔ y < cols := by
          simp
        simp only [hy0]
      · have e1 : (x = j ∧ 0 ≤ y ∧ y < cols) = False := by
          simp [hxj]
        have e2 : (x = j ∧ 0 ≤ i ∧ i < cols) = False := by
          simp [hxj]
        have e3 : (i = j ∧ 0 ≤ y ∧ y < cols) = False := by
          simp [hij]
        have e4 : (i = j ∧ 0 ≤ i ∧ i < cols) = False := by
          simp [hij]
        simp only [e1, e2, e3, e4, if_false]
        have hiff : (¬x = i ∧ j + 1 ≤ x ∧ x < rows ∧ y < cols) ↔
            (¬x = i ∧ j ≤ x ∧ x < rows ∧ y < cols) := by
          omega
        simp only [hiff]
  | case3 j rows cols tr h =>
      rw [elimJLoop, dif_neg h]
      have c : ¬(¬x = i ∧ j ≤ x ∧ x < rows ∧ y < cols) := by
        rintro ⟨-, h1, h2, -⟩
        omega
      rw [if_neg c]

lemma detElimJ_apply (i j rows cols : ℕ) (tmp : ℕ → ℕ → K) (x y : ℕ) :
    i < j →
    detElimJ i j rows cols tmp x y =
      if j ≤ x ∧ x < rows ∧ i ≤ y ∧ y < cols then
        tmp x y - tmp i y / tmp i i * tmp x i
      else tmp x y := by
  induction j, rows, cols, tmp using detElimJ.induct i with
  | x_1 => infer_instance
  | case1 j rows cols tmp h ih =>
      intro hij
      rw [detElimJ, dif_pos h]
      refine (ih (by omega)).trans ?_
      have hij2 : ¬i = j := by omega
      simp only [detElimK_apply i j hij2]
      by_cases hxj : x = j
      · have c1 : ¬(j + 1 ≤ x ∧ x < rows ∧ i ≤ y ∧ y < cols) := by
          rintro ⟨hx, -, -, -⟩
          omega
        rw [if_neg c1]
        have c2 : (j ≤ x ∧ x < rows ∧ i ≤ y ∧ y < cols) ↔ (i ≤ y ∧ y < cols) := by
          constructor
          · exact fun hc => hc.2.2
          · exact fun hc => ⟨by omega, by omega, hc⟩
        simp only [c2]
        have e1 : (x = j ∧ i ≤ y ∧ y < cols) ↔ (i ≤ y ∧ y < cols) := by
          constructor
          · exact fun hc => hc.2
          · exact fun hc => ⟨hxj, hc⟩
        simp only [e1, hxj]
        have hy0 : (True ∧ i ≤ y ∧ y < cols) ↔ (i ≤ y ∧ y < cols) := by
          simp
        simp only [hy0]
      · have e1 : (x = j ∧ i ≤ y ∧ y < cols) = False := by
          simp [hxj]
        have e2 : (x = j ∧ i ≤ i ∧ i < cols) = False := by
          simp [hxj]
        have e3 : (i = j ∧ i ≤ y ∧ y < cols) = False := by
          simp [hij2]
        have e4 : (i = j ∧ i ≤ i ∧ i < cols) = False := by
          simp [hij2]
        simp only [e1, e2, e3, e4, if_false]
        have hiff : (j + 1 ≤ x ∧ x < rows ∧ i ≤ y ∧ y < cols) ↔
            (j ≤ x ∧ x < rows ∧ i ≤ y ∧ y < cols) := by
          omega
        simp only [hiff]
  | case2 j rows cols tmp h =>
      intro hij
      rw [detElimJ, dif_neg h]
      have c : ¬(j ≤ x ∧ x < rows ∧ i ≤ y ∧ y < cols) := by
        rintro ⟨h1, h2, -, -⟩
        omega
      rw [if_neg c]



lemma invLoop_done (rows cols i : ℕ) (tmp ret : ℕ → ℕ → K) (h : ¬i < rows) :
    invLoop rows cols i tmp ret = .ok ret := by
  rw [invLoop, dif_neg h]

lemma invLoop_missing (rows cols i : ℕ) (tmp ret : ℕ → ℕ → K) (h : i < rows)
    (hj : pivotScan tmp rows i i = rows) :
    invLoop rows cols i tmp ret = .error .degenerate := by
  rw [invLoop, dif_pos h, if_pos hj]

lemma invLoop_found (rows cols i : ℕ) (tmp ret : ℕ → ℕ → K) (h : i < rows)
    (hj : ¬pivotScan tmp rows i i = rows) :
    invLoop rows cols i tmp ret =
      invLoop rows cols (i + 1) (invStepPair rows cols i tmp ret).1
        (invStepPair rows cols i tmp ret).2 := by
  rw [invLoop, dif_pos h, if_neg hj]

lemma detLoop_done (rows cols bound i : ℕ) (tmp : ℕ → ℕ → K) (b : Bool)
    (h : ¬i < bound) :
    detLoop rows cols bound i tmp b =
      if b then -(diagProd tmp rows) else diagProd tmp rows := by
  rw [detLoop, dif_neg h]

lemma detLoop_missing (rows cols bound i : ℕ) (tmp : ℕ → ℕ → K) (b : Bool)
    (h : i < bound) (hj : pivotScan tmp rows i i = rows) :
    detLoop rows cols bound i tmp b = 0 := by
  rw [detLoop, dif_pos h, if_pos hj]

lemma detLoop_found (rows cols bound i : ℕ) (tmp : ℕ → ℕ → K) (b : Bool)
    (h : i < bound) (hj : ¬pivotScan tmp rows i i = rows) :
    detLoop rows cols bound i tmp b =
      detLoop rows cols bound (i + 1) (detStepTmp rows cols i tmp)
        (if i ≠ pivotScan tmp rows i i then !b else b) := by
  rw [detLoop, dif_pos h, if_neg hj]


lemma stepZeros (rows cols i : ℕ) (hcols : cols = rows) (hir : i < rows)
    (d1 : ℕ → ℕ → K)
    (hzero : ∀ a c, i ≤ a → a < rows → c < i → d1 a c = 0)
    (hpD : d1 i i ≠ 0) :
    ∀ a c, i + 1 ≤ a → a < rows → c < i + 1 →
      detElimJ i (i + 1) rows cols d1 a c = 0 := by
  intro a c ha har hc
  rw [detElimJ_apply i (i + 1) rows cols d1 a c (by omega)]
  rcases Nat.lt_or_ge c i with hci | hci
  · have hcond : ¬(i + 1 ≤ a ∧ a < rows ∧ i ≤ c ∧ c < cols) := by
      rintro ⟨-, -, hcc, -⟩
      omega
    rw [if_neg hcond]
    exact hzero a c (by omega) har hci
  · have hci2 : c = i := by omega
    subst hci2
    have hcond : c + 1 ≤ a ∧ a < rows ∧ c ≤ c ∧ c < cols := by
      refine ⟨ha, har, le_rfl, by omega⟩
    rw [if_pos hcond]
    rw [div_self hpD, one_mul, sub_self]

lemma stepAgree (rows cols i : ℕ) (hcols : cols = rows) (hir : i < rows)
    (t1 d1 r1 : ℕ → ℕ → K)
    (hagree : ∀ a c, i ≤ a → t1 a c = d1 a c)
    (hzero : ∀ a c, i ≤ a → a < rows → c < i → d1 a c = 0)
    (hp : t1 i i ≠ 0) :
    ∀ a c, i + 1 ≤ a →
      (elimJLoop i 0 rows cols
        (upd (normLoop i 0 cols (t1, r1)).1 i i 1,
         upd (normLoop i 0 cols (t1, r1)).2 i i
           ((normLoop i 0 cols (t1, r1)).2 i i / (normLoop i 0 cols (t1, r1)).1 i i))).1 a c
      = detElimJ i (i + 1) rows cols d1 a c := by
  intro a c ha
  have hai : ¬a = i := by omega
  rw [elimJLoop_fst, detElimJ_apply i (i + 1) rows cols d1 a c (by omega)]
  dsimp only
  -- the tmp component fed to the elimination loop
  have tmp3_at : ∀ u v : ℕ, ¬u = i →
      (upd (normLoop i 0 cols (t1, r1)).1 i i 1) u v = t1 u v := by
    intro u v hu
    rw [upd_apply, if_neg (by rintro ⟨h1, -⟩; exact hu h1), normLoop_fst,
      if_neg (by rintro ⟨h1, -⟩; exact hu h1)]
  have tmp3_ii : (upd (normLoop i 0 cols (t1, r1)).1 i i 1) i i = 1 := by
    rw [upd_apply, if_pos ⟨rfl, rfl⟩]
  have tmp3_row : ∀ v : ℕ, ¬v = i → v < cols →
      (upd (normLoop i 0 cols (t1, r1)).1 i i 1) i v = t1 i v / t1 i i := by
    intro v hv hvc
    rw [upd_apply, if_neg (by rintro ⟨-, h2⟩; exact hv h2), normLoop_fst,
      if_pos ⟨rfl, Nat.zero_le v, hvc, hv⟩]
  by_cases har : a < rows
  · by_cases hcc : c < cols
    · have hcondI : ¬a = i ∧ 0 ≤ a ∧ a < rows ∧ c < cols := ⟨hai, Nat.zero_le a, har, hcc⟩
      rw [if_pos hcondI]
      rcases Nat.lt_trichotomy c i with hci | hci | hci
      · -- c < i : the inverse loop subtracts a zero multiple, the det loop skips
        have hcondD : ¬(i + 1 ≤ a ∧ a < rows ∧ i ≤ c ∧ c < cols) := by
          rintro ⟨-, -, hcc2, -⟩
          omega
        rw [if_neg hcondD]
        have h0 : t1 i c = 0 := by
          rw [hagree i c le_rfl]
          exact hzero i c le_rfl hir hci
        rw [tmp3_at a c hai, tmp3_at a i hai, tmp3_ii,
          tmp3_row c (by omega) hcc, h0, zero_div, zero_div, zero_mul, sub_zero]
        exact hagree a c (by omega)
      · -- c = i : both sides eliminate the pivot column to zero
        subst hci
        have hpD : d1 c c ≠ 0 := by
          rw [← hagree c c le_rfl]
          exact hp
        have hcondD : c + 1 ≤ a ∧ a < rows ∧ c ≤ c ∧ c < cols := by
          exact ⟨ha, har, le_rfl, hcc⟩
        rw [if_pos hcondD]
        rw [tmp3_at a c hai, tmp3_ii, div_one, one_mul, sub_self,
          div_self hpD, one_mul, sub_self]
      · -- i < c : both sides perform the same elimination
        have hcondD : i + 1 ≤ a ∧ a < rows ∧ i ≤ c ∧ c < cols := by
          exact ⟨ha, har, by omega, hcc⟩
        rw [if_pos hcondD]
        rw [tmp3_at a c hai, tmp3_at a i hai, tmp3_ii,
          tmp3_row c (by omega) hcc, div_one,
          hagree a c (by omega), hagree a i (by omega),
          hagree i c le_rfl, hagree i i le_rfl]
    · -- c ≥ cols : neither loop touches column c
      have hcondI : ¬(¬a = i ∧ 0 ≤ a ∧ a < rows ∧ c < cols) := by
        rintro ⟨-, -, -, h2⟩
        exact hcc h2
      have hcondD : ¬(i + 1 ≤ a ∧ a < rows ∧ i ≤ c ∧ c < cols) := by
        rintro ⟨-, -, -, h2⟩
        exact hcc h2
      rw [if_neg hcondI, if_neg hcondD, tmp3_at a c hai]
      exact hagree a c (by omega)
  · -- a ≥ rows : neither loop touches row a
       have hcondI : ¬(¬a = i ∧ 0 ≤ a ∧ a < rows ∧ c < cols) := by
         rintro ⟨-, -, h2, -⟩
         exact har h2
       have hcondD : ¬(i + 1 ≤ a ∧ a < rows ∧ i ≤ c ∧ c < cols) := by
         rintro ⟨-, h2, -, -⟩
         exact har h2
       rw [if_neg hcondI, if_neg hcondD, tmp3_at a c hai]
       exact hagree a c (by omega)


/-- Core comparison of the two Gauss eliminations: if `inverse()`'s loop
throws `degenerate_matrix_error` from state `(i, tmpI)`, then
`determinant()`'s loop from a state `(i, tmpD)` that agrees with `tmpI` on
all rows `≥ i` (and has the eliminated zeros below-left) returns `0`. -/
lemma invLoop_error_detLoop_zero (rows cols : ℕ) (hcols : cols = rows) :
    ∀ n i (tmpI tmpD ret : ℕ → ℕ → K) (b : Bool), rows - i ≤ n →
    (∀ a c, i ≤ a → tmpI a c = tmpD a c) →
    (∀ a c, i ≤ a → a < rows → c < i → tmpD a c = 0) →
    invLoop rows cols i tmpI ret = .error .degenerate →
    detLoop rows cols (rows - 1) i tmpD b = 0 := by
  intro n
  induction n with
  | zero =>
      intro i tmpI tmpD ret b hn hagree hzero herr
      rw [invLoop_done rows cols i tmpI ret (by omega)] at herr
      exact absurd herr (by simp)
  | succ n ih =>
      intro i tmpI tmpD ret b hn hagree hzero herr
      by_cases hir : i < rows
      · have hjeq : pivotScan tmpD rows i i = pivotScan tmpI rows i i :=
          (pivotScan_congr tmpI tmpD rows i i (fun m hm => hagree m i hm)).symm
        by_cases hmiss : pivotScan tmpI rows i i = rows
        · by_cases hib : i < rows - 1
          · exact detLoop_missing rows cols (rows - 1) i tmpD b hib (hjeq.trans hmiss)
          · -- the pivot fails at the very last column: the determinant loop is
            -- already finished and the last diagonal entry is zero
            rw [detLoop_done rows cols (rows - 1) i tmpD b (by omega)]
            have hieq : rows = i + 1 := by omega
            have h0 : tmpD i i = 0 := by
              rw [← hagree i i le_rfl]
              exact pivotScan_zero_before tmpI rows i i i le_rfl (by omega)
            rw [hieq]
            cases b <;> simp [diagProd, h0]
        · -- a pivot is found: both loops perform the same step
          rw [invLoop_found rows cols i tmpI ret hir hmiss] at herr
          have hiP : i ≤ pivotScan tmpI rows i i := pivotScan_ge tmpI rows i i
          have hPlt : pivotScan tmpI rows i i < rows :=
            lt_of_le_of_ne (pivotScan_le tmpI rows i i (le_of_lt hir)) hmiss
          have hpI : tmpI (pivotScan tmpI rows i i) i ≠ 0 :=
            pivotScan_found tmpI rows i i hPlt
          have agree1 : ∀ a c, i ≤ a →
              (if i ≠ pivotScan tmpI rows i i then
                rowSwapFrom tmpI i (pivotScan tmpI rows i i) i cols else tmpI) a c =
              (if i ≠ pivotScan tmpI rows i i then
                rowSwapFrom tmpD i (pivotScan tmpI rows i i) i cols else tmpD) a c := by
            intro a c hac
            by_cases hsw : i ≠ pivotScan tmpI rows i i
            · rw [if_pos hsw, if_pos hsw, rowSwapFrom_apply, rowSwapFrom_apply]
              by_cases hin : i ≤ c ∧ c < cols
              · rw [if_pos hin, if_pos hin]
                by_cases hxi : a = i
                · rw [if_pos hxi, if_pos hxi]
                  exact hagree (pivotScan tmpI rows i i) c hiP
                · rw [if_neg hxi, if_neg hxi]
                  by_cases hxj : a = pivotScan tmpI rows i i
                  · rw [if_pos hxj, if_pos hxj]
                    exact hagree i c le_rfl
                  · rw [if_neg hxj, if_neg hxj]
                    exact hagree a c hac
              · rw [if_neg hin, if_neg hin]
                exact hagree a c hac
            · rw [if_neg hsw, if_neg hsw]
              exact hagree a c hac
          have zero1 : ∀ a c, i ≤ a → a < rows → c < i →
              (if i ≠ pivotScan tmpI rows i i then
                rowSwapFrom tmpD i (pivotScan tmpI rows i i) i cols else tmpD) a c = 0 := by
            intro a c h1 h2 h3
            by_cases hsw : i ≠ pivotScan tmpI rows i i
            · rw [if_pos hsw, rowSwapFrom_apply, if_neg (by rintro ⟨hc1, -⟩; omega)]
              exact hzero a c h1 h2 h3
            · rw [if_neg hsw]
              exact hzero a c h1 h2 h3
          have hp1 : (if i ≠ pivotScan tmpI rows i i then
              rowSwapFrom tmpI i (pivotScan tmpI rows i i) i cols else tmpI) i i ≠ 0 := by
            by_cases hsw : i ≠ pivotScan tmpI rows i i
            · rw [if_pos hsw, rowSwapFrom_apply, if_pos ⟨le_rfl, by omega⟩, if_pos rfl]
              exact hpI
            · rw [if_neg hsw]
              have hswe : pivotScan tmpI rows i i = i := by omega
              have hre : tmpI (pivotScan tmpI rows i i) i = tmpI i i := by
                rw [hswe]
              rw [← hre]
              exact hpI
          have hpD1 : (if i ≠ pivotScan tmpI rows i i then
              rowSwapFrom tmpD i (pivotScan tmpI rows i i) i cols else tmpD) i i ≠ 0 := by
            rw [← agree1 i i le_rfl]
            exact hp1
          have hObl1 : ∀ a c, i + 1 ≤ a →
              (invStepPair rows cols i tmpI ret).1 a c = detStepTmp rows cols i tmpD a c := by
            intro a c ha
            simp only [invStepPair, detStepTmp]
            rw [hjeq]
            exact stepAgree rows cols i hcols hir _ _ _ agree1 zero1 hp1 a c ha
          have hObl2 : ∀ a c, i + 1 ≤ a → a < rows → c < i + 1 →
              detStepTmp rows cols i tmpD a c = 0 := by
            intro a c ha har hc
            simp only [detStepTmp]
            rw [hjeq]
            exact stepZeros rows cols i hcols hir _ zero1 hpD1 a c ha har hc
          by_cases hib : i < rows - 1
          · rw [detLoop_found rows cols (rows - 1) i tmpD b hib
              (fun hcon => hmiss (hjeq ▸ hcon))]
            exact ih (i + 1) (invStepPair rows cols i tmpI ret).1
              (detStepTmp rows cols i tmpD) (invStepPair rows cols i tmpI ret).2
              (if i ≠ pivotScan tmpD rows i i then !b else b) (by omega) hObl1 hObl2 herr
          · -- a pivot was found at the last column, so the inverse loop
            -- completes successfully: contradiction with the thrown error
            rw [invLoop_done rows cols (i + 1) _ _ (by omega)] at herr
            exact absurd herr (by simp)
      · rw [invLoop_done rows cols i tmpI ret hir] at herr
        exact absurd herr (by simp)


lemma sizeTSub_one (n : ℕ) (h1 : 1 ≤ n) (h2 : n < 2 ^ 64) : sizeTSub n 1 = n - 1 := by
  unfold sizeTSub
  omega

lemma sizeTSub_zero_one : sizeTSub 0 1 = 2 ^ 64 - 1 := by
  unfold sizeTSub
  omega

/-- C6: for every square matrix on which the Gauss–Jordan elimination of
`inverse()` finds a pivot column with no nonzero entry in the remaining
rows — that is, on which `inverse()` aborts with `degenerate_matrix_error`
and no partial result — `determinant()` silently returns exactly `0`
(either through its early `return T1(0)` or through a zero diagonal entry
in the final product). -/
theorem inverse_degenerate_determinant_zero (M : Mat K)
    (herr : matInverse M = .error .degenerate) (hsize : M.rows < 2 ^ 64) :
    matDeterminant M = .ok 0 := by
  by_cases hsq : M.rows = M.cols
  · rw [matInverse, if_pos hsq] at herr
    have hloop : invLoop M.rows M.cols 0 M.entry (matIdentity K M.rows).entry =
        .error .degenerate := by
      rcases hres : invLoop M.rows M.cols 0 M.entry (matIdentity K M.rows).entry with e | v
      · rw [hres] at herr
        simp only [Except.map] at herr
        rw [Except.error.injEq] at herr
        rw [herr]
      · rw [hres] at herr
        simp only [Except.map] at herr
        exact absurd herr (by simp)
    have hpos : 0 < M.rows := by
      by_contra hc
      rw [invLoop_done M.rows M.cols 0 _ _ (by omega)] at hloop
      exact absurd hloop (by simp)
    have hz := invLoop_error_detLoop_zero M.rows M.cols hsq.symm M.rows 0
      M.entry M.entry (matIdentity K M.rows).entry false (by omega)
      (fun _ _ _ => rfl) (fun a c _ _ hc => absurd hc (Nat.not_lt_zero c)) hloop
    rw [matDeterminant, if_pos hsq, sizeTSub_one M.rows hpos hsize, hz]
  · rw [matInverse, if_neg hsq] at herr
    exact absurd herr (by simp)

/-- A concrete singular matrix: the `1 × 1` zero matrix over `ℚ`. -/
def matDeg : Mat ℚ := ⟨1, 1, fun _ _ => 0⟩

/-- Witness for C6 at the `1 × 1` zero matrix: `inverse()` throws the
degenerate-matrix error there and `determinant()` returns `0`. -/
theorem inverse_degenerate_determinant_zero_witness :
    matInverse matDeg = .error .degenerate ∧ (matDeg.rows < 2 ^ 64) ∧
      matDeterminant matDeg = .ok 0 := by
  have h1 : matInverse matDeg = .error .degenerate := by
    rw [matDeg, matInverse]
    norm_num
    rw [invLoop]
    norm_num
    rw [pivotScan]
    norm_num
    rw [pivotScan]
    norm_num
    rfl
  have h2 : matDeg.rows < 2 ^ 64 := by
    rw [matDeg]
    norm_num
  exact ⟨h1, h2, inverse_degenerate_determinant_zero matDeg h1 h2⟩


/-- The `0 × 0` matrix over `ℚ` (constructed as `matrix<T>(0, 0)`). -/
def matEmpty : Mat ℚ := ⟨0, 0, fun _ _ => 0⟩

/-- C10: `determinant()` on the `0 × 0` matrix returns `0`, not the
mathematical convention `1`: the unsigned loop bound `rows() - 1` wraps
around to `2^64 - 1`, the first pivot scan over zero rows finds no pivot,
and the degenerate early-return fires. -/
theorem determinant_empty_zero :
    matDeterminant matEmpty = .ok 0 ∧ 0 < sizeTSub matEmpty.rows 1 ∧
      (0 : ℚ) ≠ 1 := by
  refine ⟨?_, ?_, by norm_num⟩
  · rw [matDeterminant, if_pos (show matEmpty.rows = matEmpty.cols from rfl)]
    rw [detLoop_missing matEmpty.rows matEmpty.cols (sizeTSub matEmpty.rows 1) 0
      matEmpty.entry false ?hb ?hp]
    case hb =>
      rw [matEmpty, sizeTSub_zero_one]
      norm_num
    case hp =>
      rw [matEmpty, pivotScan]
      norm_num
  · rw [matEmpty, sizeTSub_zero_one]
    norm_num


/-- Entry function of a concrete matrix given by its rows (entries outside
the grid are the unobservable `T()` zeros of the backing vectors). -/
def gridQ (g : List (List ℚ)) : ℕ → ℕ → ℚ :=
  fun x y => (g.getD x []).getD y 0

lemma invStepPair_fst_outside (rows cols i : ℕ) (tmp ret : ℕ → ℕ → K)
    (hi : i < rows) (hic : i < cols) (hP : pivotScan tmp rows i i < rows) :
    ∀ a c, rows ≤ a ∨ cols ≤ c → (invStepPair rows cols i tmp ret).1 a c = tmp a c := by
  intro a c hac
  have hnotJ : ¬(¬a = i ∧ 0 ≤ a ∧ a < rows ∧ c < cols) := by
    rintro ⟨-, -, h3, h4⟩
    rcases hac with h | h <;> omega
  simp only [invStepPair]
  rw [elimJLoop_fst, if_neg hnotJ]
  dsimp only
  rw [upd_apply, if_neg (by rintro ⟨h1, h2⟩; rcases hac with h | h <;> omega),
    normLoop_fst, if_neg (by rintro ⟨h1, -, h3, -⟩; rcases hac with h | h <;> omega)]
  dsimp only
  by_cases hsw : i ≠ pivotScan tmp rows i i
  · rw [if_pos hsw, rowSwapFrom_apply]
    rcases hac with h | h
    · by_cases hin : i ≤ c ∧ c < cols
      · rw [if_pos hin, if_neg (by omega), if_neg (by omega)]
      · rw [if_neg hin]
    · rw [if_neg (by rintro ⟨-, h2⟩; omega)]
  · rw [if_neg hsw]

lemma invStepPair_snd_outside (rows cols i : ℕ) (tmp ret : ℕ → ℕ → K)
    (hi : i < rows) (hic : i < cols) (hP : pivotScan tmp rows i i < rows) :
    ∀ a c, rows ≤ a ∨ cols ≤ c → (invStepPair rows cols i tmp ret).2 a c = ret a c := by
  intro a c hac
  have hnotJ : ¬(¬a = i ∧ 0 ≤ a ∧ a < rows ∧ c < cols) := by
    rintro ⟨-, -, h3, h4⟩
    rcases hac with h | h <;> omega
  simp only [invStepPair]
  rw [elimJLoop_snd, if_neg hnotJ]
  dsimp only
  rw [upd_apply, if_neg (by rintro ⟨h1, h2⟩; rcases hac with h | h <;> omega),
    normLoop_snd, if_neg (by rintro ⟨h1, -, h3, -⟩; rcases hac with h | h <;> omega)]
  dsimp only
  by_cases hsw : i ≠ pivotScan tmp rows i i
  · rw [if_pos hsw, rowSwapFrom_apply]
    rcases hac with h | h
    · by_cases hin : i ≤ c ∧ c < cols
      · rw [if_pos hin, if_neg (by omega), if_neg (by omega)]
      · rw [if_neg hin]
    · rw [if_neg (by rintro ⟨-, h2⟩; omega)]
  · rw [if_neg hsw]


/-- The C4/C5 counterexample input: `M = [[1,1,1],[2,2,3],[3,4,5]]` (a
non-singular matrix, `det M = -1`, whose elimination needs a row swap at
pivot index 1). -/
def M3e : ℕ → ℕ → ℚ := gridQ [[1, 1, 1], [2, 2, 3], [3, 4, 5]]

lemma scan0 : pivotScan M3e 3 0 0 = 0 := by
  rw [pivotScan_stop _ _ _ _ (by norm_num [M3e, gridQ])]

lemma step0_fst : (invStepPair 3 3 0 M3e (matIdentity ℚ 3).entry).1 =
    gridQ [[1, 1, 1], [0, 0, 1], [0, 1, 2]] := by
  funext a c
  rcases Nat.lt_or_ge a 3 with ha | ha
  · rcases Nat.lt_or_ge c 3 with hc | hc
    · interval_cases a <;> interval_cases c <;>
        ·  simp only [invStepPair, scan0]
           norm_num [elimJLoop_fst, upd_apply, normLoop_fst, rowSwapFrom_apply,
             M3e, gridQ, matIdentity]
    · rw [invStepPair_fst_outside 3 3 0 _ _ (by norm_num) (by norm_num)
        (by rw [scan0]; norm_num) a c (Or.inr hc)]
      obtain ⟨d, rfl⟩ : ∃ d, c = d + 3 := ⟨c - 3, by omega⟩
      interval_cases a <;> simp [M3e, gridQ]
  · rw [invStepPair_fst_outside 3 3 0 _ _ (by norm_num) (by norm_num)
      (by rw [scan0]; norm_num) a c (Or.inl ha)]
    obtain ⟨d, rfl⟩ : ∃ d, a = d + 3 := ⟨a - 3, by omega⟩
    simp [M3e, gridQ]


lemma step0_snd : (invStepPair 3 3 0 M3e ((matIdentity ℚ 3).entry)).2 =
    gridQ [[1, 0, 0], [-2, 1, 0], [-3, 0, 1]] := by
  funext a c
  rcases Nat.lt_or_ge a 3 with ha | ha
  · rcases Nat.lt_or_ge c 3 with hc | hc
    · interval_cases a <;> interval_cases c <;>
        ·  simp only [invStepPair, scan0]
           norm_num [elimJLoop_fst, elimJLoop_snd, upd_apply, normLoop_fst, normLoop_snd,
             rowSwapFrom_apply, M3e, gridQ, matIdentity]
    · rw [invStepPair_snd_outside 3 3 0 _ _ (by norm_num) (by norm_num)
        (by rw [scan0]; norm_num) a c (Or.inr hc)]
      obtain ⟨d, rfl⟩ : ∃ d, c = d + 3 := ⟨c - 3, by omega⟩
      interval_cases a <;> simp [gridQ, matIdentity]
  · rw [invStepPair_snd_outside 3 3 0 _ _ (by norm_num) (by norm_num)
      (by rw [scan0]; norm_num) a c (Or.inl ha)]
    obtain ⟨d, rfl⟩ : ∃ d, a = d + 3 := ⟨a - 3, by omega⟩
    simp [gridQ, matIdentity]

lemma scan1 : pivotScan (gridQ [[1, 1, 1], [0, 0, 1], [0, 1, 2]]) 3 1 1 = 2 := by
  rw [pivotScan_step _ _ _ _ (by norm_num) (by norm_num [gridQ]),
    pivotScan_stop _ _ _ _ (by norm_num [gridQ])]

lemma scan2 : pivotScan (gridQ [[1, 0, -1], [0, 1, 2], [0, 0, 1]]) 3 2 2 = 2 := by
  rw [pivotScan_stop _ _ _ _ (by norm_num [gridQ])]

lemma step1_fst : (invStepPair 3 3 1 (gridQ [[1, 1, 1], [0, 0, 1], [0, 1, 2]]) (gridQ [[1, 0, 0], [-2, 1, 0], [-3, 0, 1]])).1 =
    gridQ [[1, 0, -1], [0, 1, 2], [0, 0, 1]] := by
  funext a c
  rcases Nat.lt_or_ge a 3 with ha | ha
  · rcases Nat.lt_or_ge c 3 with hc | hc
    · interval_cases a <;> interval_cases c <;>
        ·  simp only [invStepPair, scan1]
           norm_num [elimJLoop_fst, elimJLoop_snd, upd_apply, normLoop_fst, normLoop_snd, rowSwapFrom_apply,
             M3e, gridQ, matIdentity]
    · rw [invStepPair_fst_outside 3 3 1 _ _ (by norm_num) (by norm_num)
        (by rw [scan1]; norm_num) a c (Or.inr hc)]
      obtain ⟨d, rfl⟩ : ∃ d, c = d + 3 := ⟨c - 3, by omega⟩
      interval_cases a <;> simp [M3e, gridQ, matIdentity]
  · rw [invStepPair_fst_outside 3 3 1 _ _ (by norm_num) (by norm_num)
      (by rw [scan1]; norm_num) a c (Or.inl ha)]
    obtain ⟨d, rfl⟩ : ∃ d, a = d + 3 := ⟨a - 3, by omega⟩
    simp [M3e, gridQ, matIdentity]

lemma step1_snd : (invStepPair 3 3 1 (gridQ [[1, 1, 1], [0, 0, 1], [0, 1, 2]]) (gridQ [[1, 0, 0], [-2, 1, 0], [-3, 0, 1]])).2 =
    gridQ [[3, 0, -1], [-2, 0, 1], [-3, 1, 0]] := by
  funext a c
  rcases Nat.lt_or_ge a 3 with ha | ha
  · rcases Nat.lt_or_ge c 3 with hc | hc
    · interval_cases a <;> interval_cases c <;>
        ·  simp only [invStepPair, scan1]
           norm_num [elimJLoop_fst, elimJLoop_snd, upd_apply, normLoop_fst, normLoop_snd, rowSwapFrom_apply,
             M3e, gridQ, matIdentity]
    · rw [invStepPair_snd_outside 3 3 1 _ _ (by norm_num) (by norm_num)
        (by rw [scan1]; norm_num) a c (Or.inr hc)]
      obtain ⟨d, rfl⟩ : ∃ d, c = d + 3 := ⟨c - 3, by omega⟩
      interval_cases a <;> simp [M3e, gridQ, matIdentity]
  · rw [invStepPair_snd_outside 3 3 1 _ _ (by norm_num) (by norm_num)
      (by rw [scan1]; norm_num) a c (Or.inl ha)]
    obtain ⟨d, rfl⟩ : ∃ d, a = d + 3 := ⟨a - 3, by omega⟩
    simp [M3e, gridQ, matIdentity]

lemma step2_fst : (invStepPair 3 3 2 (gridQ [[1, 0, -1], [0, 1, 2], [0, 0, 1]]) (gridQ [[3, 0, -1], [-2, 0, 1], [-3, 1, 0]])).1 =
    gridQ [[1, 0, 0], [0, 1, 0], [0, 0, 1]] := by
  funext a c
  rcases Nat.lt_or_ge a 3 with ha | ha
  · rcases Nat.lt_or_ge c 3 with hc | hc
    · interval_cases a <;> interval_cases c <;>
        ·  simp only [invStepPair, scan2]
           norm_num [elimJLoop_fst, elimJLoop_snd, upd_apply, normLoop_fst, normLoop_snd, rowSwapFrom_apply,
             M3e, gridQ, matIdentity]
    · rw [invStepPair_fst_outside 3 3 2 _ _ (by norm_num) (by norm_num)
        (by rw [scan2]; norm_num) a c (Or.inr hc)]
      obtain ⟨d, rfl⟩ : ∃ d, c = d + 3 := ⟨c - 3, by omega⟩
      interval_cases a <;> simp [M3e, gridQ, matIdentity]
  · rw [invStepPair_fst_outside 3 3 2 _ _ (by norm_num) (by norm_num)
      (by rw [scan2]; norm_num) a c (Or.inl ha)]
    obtain ⟨d, rfl⟩ : ∃ d, a = d + 3 := ⟨a - 3, by omega⟩
    simp [M3e, gridQ, matIdentity]

lemma step2_snd : (invStepPair 3 3 2 (gridQ [[1, 0, -1], [0, 1, 2], [0, 0, 1]]) (gridQ [[3, 0, -1], [-2, 0, 1], [-3, 1, 0]])).2 =
    gridQ [[0, 1, -1], [4, -2, 1], [-3, 1, 0]] := by
  funext a c
  rcases Nat.lt_or_ge a 3 with ha | ha
  · rcases Nat.lt_or_ge c 3 with hc | hc
    · interval_cases a <;> interval_cases c <;>
        ·  simp only [invStepPair, scan2]
           norm_num [elimJLoop_fst, elimJLoop_snd, upd_apply, normLoop_fst, normLoop_snd, rowSwapFrom_apply,
             M3e, gridQ, matIdentity]
    · rw [invStepPair_snd_outside 3 3 2 _ _ (by norm_num) (by norm_num)
        (by rw [scan2]; norm_num) a c (Or.inr hc)]
      obtain ⟨d, rfl⟩ : ∃ d, c = d + 3 := ⟨c - 3, by omega⟩
      interval_cases a <;> simp [M3e, gridQ, matIdentity]
  · rw [invStepPair_snd_outside 3 3 2 _ _ (by norm_num) (by norm_num)
      (by rw [scan2]; norm_num) a c (Or.inl ha)]
    obtain ⟨d, rfl⟩ : ∃ d, a = d + 3 := ⟨a - 3, by omega⟩
    simp [M3e, gridQ, matIdentity]


/-- The C4 counterexample matrix as a `Mat`. -/
def M3mat : Mat ℚ := ⟨3, 3, M3e⟩

/-- What `inverse()` actually returns on `M3mat` (it is NOT the inverse of
`M3mat`: the true inverse is `[[2,1,-1],[1,-2,1],[-2,1,0]]`). -/
def M3inv : Mat ℚ := ⟨3, 3, gridQ [[0, 1, -1], [4, -2, 1], [-3, 1, 0]]⟩

lemma inv_M3 : matInverse M3mat = .ok M3inv := by
  rw [matInverse, if_pos (show M3mat.rows = M3mat.cols from rfl)]
  show (invLoop 3 3 0 M3e (matIdentity ℚ 3).entry).map
      (fun ret => (⟨3, 3, ret⟩ : Mat ℚ)) = .ok M3inv
  rw [invLoop_found 3 3 0 M3e ((matIdentity ℚ 3).entry) (by norm_num)
    (by rw [scan0]; norm_num)]
  rw [step0_fst, step0_snd]
  rw [invLoop_found 3 3 1 _ _ (by norm_num) (by rw [scan1]; norm_num)]
  rw [step1_fst, step1_snd]
  rw [invLoop_found 3 3 2 _ _ (by norm_num) (by rw [scan2]; norm_num)]
  rw [step2_fst, step2_snd]
  rw [invLoop_done 3 3 3 _ _ (by norm_num)]
  rfl

/-- C4: the product `M.inverse() * M` is NOT the identity for the
non-singular matrix `M3mat` (its determinant is `-1`): the entry `(0,0)` of
the product is `-1`, not the identity's `1`.  (The cause is the `ret` row
swap starting at column `i`; see C5.) -/
theorem inverse_times_self_not_identity :
    matInverse M3mat = .ok M3inv ∧
    (matMul M3inv M3mat).map (fun P => P.entry 0 0) = .ok (-1) ∧
    (matIdentity ℚ 3).entry 0 0 = 1 ∧ (-1 : ℚ) ≠ 1 := by
  refine ⟨inv_M3, ?_, by norm_num [matIdentity], by norm_num⟩
  rw [matMul, if_pos (show M3inv.cols = M3mat.rows from rfl)]
  simp only [Except.map]
  rw [Except.ok.injEq]
  norm_num [M3inv, M3mat, M3e, gridQ, Finset.sum_range_succ]

/-- C5: the row-swap loop of `inverse()` starts at column `i` for `ret` as
well: applied at pivot index `i = 1` to the ret accumulator reached for
`M3mat` (rows `[[1,0,0],[-2,1,0],[-3,0,1]]`, swap of rows 1 and 2), it
exchanges the entries of columns `1` and `2` but leaves column `0`
untouched, keeping `-2` and `-3` in place instead of swapping them. -/
theorem inverse_ret_swap_starts_at_pivot_column :
    rowSwapFrom (gridQ [[1, 0, 0], [-2, 1, 0], [-3, 0, 1]]) 1 2 1 3 1 1 = 0 ∧
    rowSwapFrom (gridQ [[1, 0, 0], [-2, 1, 0], [-3, 0, 1]]) 1 2 1 3 2 1 = 1 ∧
    rowSwapFrom (gridQ [[1, 0, 0], [-2, 1, 0], [-3, 0, 1]]) 1 2 1 3 1 0 = -2 ∧
    rowSwapFrom (gridQ [[1, 0, 0], [-2, 1, 0], [-3, 0, 1]]) 1 2 1 3 2 0 = -3 := by
  refine ⟨?_, ?_, ?_, ?_⟩ <;>
    · rw [rowSwapFrom_apply]
      norm_num [gridQ]


/-- The coefficient matrix `m` that `gauss(A, Y)` of `gauss.h` actually
builds: `matrix<T>(A.size(), A.size())` filled from `A`, after which the
loop intended for the right-hand side executes `m(0,i) = Y[i]` — writing
`Y` over ROW 0 OF `m` itself (the `y` matrix is never written). -/
def gaussM (A : List (List ℚ)) (Y : List ℚ) : Mat ℚ :=
  ⟨A.length, A.length, fun x y =>
    if x = 0 ∧ y < Y.length then Y.getD y 0
    else (A.getD x []).getD y 0⟩

/-- `gauss(A, Y)` of `gauss.h` up to its `return` expression: the two
`assert`s, the matrix `m` (with row 0 overwritten by `Y`, see `gaussM`),
the never-written `y = matrix<T>(1, A.size())` (one ROW of `A.size()`
zeros — not a column vector), and the value `m.inverse() * y`.  The
`return` itself is ill-formed C++ (`matrix<T>` does not convert to the
declared `std::vector<T>` result), so the model stops at that product. -/
def gaussModel (A : List (List ℚ)) (Y : List ℚ) : Except MatErr (Mat ℚ) :=
  if Y.length = A.length ∧ A.all (fun r => decide (r.length ≤ A.length)) then
    (matInverse (gaussM A Y)).bind fun Minv => matMul Minv ⟨1, A.length, fun _ _ => 0⟩
  else .error .assertFail

/-- Entry function of the concrete `m` built for `A = [[4,3],[6,3]]`,
`Y = [1,1]`: row 0 overwritten to `[1,1]`, so `m = [[1,1],[6,3]]`. -/
def gE : ℕ → ℕ → ℚ := (gaussM [[4, 3], [6, 3]] [1, 1]).entry

lemma gscan0 : pivotScan gE 2 0 0 = 0 := by
  rw [pivotScan_stop _ _ _ _ (by norm_num [gE, gaussM])]

lemma gstep_entry :
    (invStepPair 2 2 0 gE (matIdentity ℚ 2).entry).1 1 1 = -3 := by
  simp only [invStepPair, gscan0]
  norm_num [elimJLoop_fst, upd_apply, normLoop_fst, rowSwapFrom_apply,
    gE, gaussM, matIdentity]

lemma gscan1 :
    pivotScan (invStepPair 2 2 0 gE (matIdentity ℚ 2).entry).1 2 1 1 = 1 := by
  rw [pivotScan_stop]
  rintro ⟨-, h0⟩
  rw [gstep_entry] at h0
  norm_num at h0

/-- C1: on the spec's own concrete scenario `A = [[4,3],[6,3]]`,
`Y = [1,1]`, the solver does not produce a solution of `A·x = Y`: the
coefficient matrix is mangled to `[[1,1],[6,3]]` (row 0 overwritten by
`Y`), the right-hand-side matrix stays zero with shape `1 × 2`, and the
final product `m.inverse() * y` fails the `columns() == m.rows()`
assertion (`2 ≠ 1`). -/
theorem gauss_concrete_scenario_fails :
    gaussModel [[4, 3], [6, 3]] [1, 1] = .error .assertFail ∧
    gE 0 0 = 1 ∧ gE 0 1 = 1 ∧ gE 1 0 = 6 ∧ gE 1 1 = 3 := by
  refine ⟨?_, by norm_num [gE, gaussM], by norm_num [gE, gaussM],
    by norm_num [gE, gaussM], by norm_num [gE, gaussM]⟩
  rw [gaussModel, if_pos (by norm_num)]
  show (matInverse ⟨2, 2, gE⟩).bind
    (fun Minv => matMul Minv ⟨1, 2, fun _ _ => 0⟩) = .error .assertFail
  rw [matInverse, if_pos (show (2 : ℕ) = 2 from rfl)]
  show Except.bind ((invLoop 2 2 0 gE (matIdentity ℚ 2).entry).map
      (fun ret => (⟨2, 2, ret⟩ : Mat ℚ)))
      (fun Minv => matMul Minv ⟨1, 2, fun _ _ => 0⟩) = .error .assertFail
  rw [invLoop_found 2 2 0 gE ((matIdentity ℚ 2).entry) (by norm_num)
    (by rw [gscan0]; norm_num)]
  rw [invLoop_found 2 2 1 _ _ (by norm_num) (by rw [gscan1]; norm_num)]
  rw [invLoop_done 2 2 2 _ _ (by norm_num)]
  simp only [Except.map, Except.bind]
  rw [matMul, if_neg (by norm_num)]


/-! ### The FFT of `fft.h` -/

/-- The length loop of `FFT`:
`size_t length = 1; while(length < P.size()) length <<= 1;`.
The guard `0 < l` is for termination only: the source enters the loop with
`l = 1` and doubles it, so `l` is never `0` on any run. -/
def nextPow2Loop (n l : ℕ) : ℕ :=
  if h : 0 < l ∧ l < n then nextPow2Loop n (2 * l) else l
termination_by n - l
decreasing_by omega

/-- The padded length of an `FFT` call on a buffer of size `n`. -/
def nextPow2 (n : ℕ) : ℕ :=
  nextPow2Loop n 1

/-- `std::swap(P[i], P[j])` on the modelled buffer. -/
def listSwap (P : List ℂ) (i j : ℕ) : List ℂ :=
  (P.set i (P.getD j 0)).set j (P.getD i 0)

/-- The inner `while(j >= b) { j -= b; b >>= 1; }` of `FFT`'s permutation
loop, with explicit fuel.  Any positive fuel is exact for the executions the
transform performs: the loop body never runs there (`j` stays `0` and
`b = N/2 ≥ 1`), and the C++ loop does not terminate at all once `b = 0`
with `j ≥ b`, which fuel exhaustion mirrors by stopping. -/
def bitrevInner : ℕ → ℕ → ℕ → ℕ × ℕ
  | 0, j, b => (j, b)
  | fuel + 1, j, b => if b ≤ j then bitrevInner fuel (j - b) (b / 2) else (j, b)

/-- The permutation loop of `FFT`:
`for(i = 1, j = 0; i < P.size(); ++i) { int b = P.size() >> 1;`
`while(j >= b) { j -= b; b >>= 1; } if(i < j) swap(P[i], P[j]); }`.
`b` is recomputed as `N/2` each iteration; `j` persists across iterations;
the inner while gets fuel `N`. -/
def bitrevLoop (N i j : ℕ) (P : List ℂ) : List ℂ :=
  if h : i < N then
    bitrevLoop N (i + 1) (bitrevInner N j (N / 2)).1
      (if i < (bitrevInner N j (N / 2)).1 then
        listSwap P i (bitrevInner N j (N / 2)).1 else P)
  else P
termination_by N - i
decreasing_by omega

/-- The root-cache refill of `FFT`: `roots.clear(); roots.resize(P.size());`
(note: `P.size()`, i.e. `N`, not `N/2`) followed by
`roots[i] = complex(cos(theta*i), sin(theta*i))` for `i < N/2`; the upper
half stays value-initialised at `0`. -/
noncomputable def rootsFill (theta : ℝ) (N : ℕ) : List ℂ :=
  (List.range N).map fun k =>
    if k < N / 2 then ⟨Real.cos (theta * k), Real.sin (theta * k)⟩ else 0

/-- The innermost butterfly loop of `FFT` (`for(k = 0; k < i/2; ++k)`):
`u = P[j+k]; v = P[j+k+i/2] * roots[layer*k]; P[j+k] = u+v;`
`P[j+k+i/2] = u-v;`. -/
noncomputable def bflyK (roots : List ℂ) (layer i j k : ℕ) (P : List ℂ) : List ℂ :=
  if h : k < i / 2 then
    bflyK roots layer i j (k + 1)
      ((P.set (j + k) (P.getD (j + k) 0 + P.getD (j + k + i / 2) 0 * roots.getD (layer * k) 0)).set
        (j + k + i / 2)
        (P.getD (j + k) 0 - P.getD (j + k + i / 2) 0 * roots.getD (layer * k) 0))
  else P
termination_by i / 2 - k
decreasing_by omega

/-- The block loop of `FFT` (`for(j = 0; j < P.size(); j += i)`); the guard
`0 < i` is for termination only (the stage size `i` is at least `2`). -/
noncomputable def bflyJ (roots : List ℂ) (N layer i j : ℕ) (P : List ℂ) : List ℂ :=
  if h : 0 < i ∧ j < N then
    bflyJ roots N layer i (j + i) (bflyK roots layer i j 0 P)
  else P
termination_by N - j
decreasing_by omega

/-- The stage loop of `FFT` (`for(i = 2; i <= P.size(); i <<= 1)` with
`layer = P.size() / i`); the guard `2 ≤ i` is for termination only (the
source enters with `i = 2` and doubles it). -/
noncomputable def bflyI (roots : List ℂ) (N i : ℕ) (P : List ℂ) : List ℂ :=
  if h : 2 ≤ i ∧ i ≤ N then
    bflyI roots N (2 * i) (bflyJ roots N (N / i) i 0 P)
  else P
termination_by N + 1 - i
decreasing_by omega

/-- `FFT(P, inv)` of `fft.h`, with the process-wide static cache `roots`
made an explicit argument: pads `P` with zeros to the next power of two
`N`, runs the permutation loop, recomputes the root cache whenever
`roots.size() != N/2` with `theta = inv * 2 * M_PI / N`, runs the butterfly
stages, and divides every element by `N` when `inv == -1`.  Returns the
overwritten buffer together with the new cache state. -/
noncomputable def FFT (roots P : List ℂ) (inv : ℤ) : List ℂ × List ℂ :=
  let N := nextPow2 P.length
  let P1 := P ++ List.replicate (N - P.length) 0
  let P2 := bitrevLoop N 1 0 P1
  let theta : ℝ := (inv : ℝ) * 2 * Real.pi / (N : ℝ)
  let roots1 := if roots.length ≠ N / 2 then rootsFill theta N else roots
  let P3 := bflyI roots1 N 2 P2
  (if inv = -1 then P3.map (fun a => a / (N : ℂ)) else P3, roots1)

/-- Modelled from the spec: the value of index `t` with its `bits` binary
digits reversed. -/
def revBits : ℕ → ℕ → ℕ
  | 0, _ => 0
  | b + 1, n => 2 ^ b * (n % 2) + revBits b (n / 2)

/-- Modelled from the spec: "the operand in bit-reversed order" — the
buffer of length `2 ^ bits` whose element at position `t` is the input
element whose index is `t` with its bits reversed (equivalently, the
element that was at index `i` ends up at index `reverse(i)`). -/
def specBitRevPerm (bits : ℕ) (P : List ℂ) : List ℂ :=
  (List.range (2 ^ bits)).map fun t => P.getD (revBits bits t) 0


lemma nextPow2Loop_step (n l : ℕ) (h : 0 < l ∧ l < n) :
    nextPow2Loop n l = nextPow2Loop n (2 * l) := by
  rw [nextPow2Loop, dif_pos h]

lemma nextPow2Loop_stop (n l : ℕ) (h : ¬(0 < l ∧ l < n)) :
    nextPow2Loop n l = l := by
  rw [nextPow2Loop, dif_neg h]

lemma nextPow2_three : nextPow2 3 = 4 := by
  rw [nextPow2, nextPow2Loop_step 3 1 (by norm_num),
    nextPow2Loop_step 3 2 (by norm_num), nextPow2Loop_stop 3 4 (by norm_num)]

lemma nextPow2_four : nextPow2 4 = 4 := by
  rw [nextPow2, nextPow2Loop_step 4 1 (by norm_num),
    nextPow2Loop_step 4 2 (by norm_num), nextPow2Loop_stop 4 4 (by norm_num)]

/-- The permutation loop of the source never moves anything: the running
index `j` starts at `0` and the loop body only ever subtracts from it, so
`j` stays `0` (`j >= b` is false for `b = N/2 ≥ 1`) and the swap guard
`i < j` never holds. -/
lemma bitrevLoop_id (N : ℕ) :
    ∀ m i (P : List ℂ), N - i ≤ m → 1 ≤ i → bitrevLoop N i 0 P = P := by
  intro m
  induction m with
  | zero =>
      intro i P hm hi
      rw [bitrevLoop, dif_neg (by omega)]
  | succ m ih =>
      intro i P hm hi
      by_cases hir : i < N
      · have hinner : bitrevInner N 0 (N / 2) = (0, N / 2) := by
          obtain ⟨f, hf⟩ : ∃ f, N = f + 1 := ⟨N - 1, by omega⟩
          rw [hf]
          show bitrevInner (f + 1) 0 ((f + 1) / 2) = (0, (f + 1) / 2)
          rw [bitrevInner, if_neg (by omega)]
        rw [bitrevLoop, dif_pos hir, hinner]
        exact ih (i + 1) P (by omega) (by omega)
      · rw [bitrevLoop, dif_neg hir]


/-- C2: the permutation loop does NOT put the buffer into bit-reversed
order: it leaves every buffer unchanged (the standard carry technique's
`j += b` re-accumulation is missing, so `j` stays `0` and no swap ever
fires), and for the length-4 buffer `[0,1,2,3]` the unchanged buffer
differs from the bit-reversed arrangement `[0,2,1,3]`. -/
theorem fft_bitrev_loop_noop :
    bitrevLoop 4 1 0 [0, 1, 2, 3] = [0, 1, 2, 3] ∧
    specBitRevPerm 2 [0, 1, 2, 3] = [0, 2, 1, 3] ∧
    ([0, 1, 2, 3] : List ℂ) ≠ [0, 2, 1, 3] := by
  refine ⟨bitrevLoop_id 4 4 1 _ (by norm_num) (by norm_num), by rfl, ?_⟩
  intro hc
  simp only [List.cons.injEq] at hc
  have h1 : (1 : ℂ) = 2 := hc.2.1
  rw [Complex.ext_iff] at h1
  norm_num at h1


lemma rootsFill_fwd4 :
    rootsFill (2 * Real.pi / 4) 4 = [1, Complex.I, 0, 0] := by
  rw [rootsFill, show List.range 4 = [0, 1, 2, 3] from rfl]
  simp only [List.map_cons, List.map_nil]
  norm_num
  constructor
  · apply Complex.ext <;> norm_num
  · apply Complex.ext <;>
      simp [show 2 * Real.pi / 4 = Real.pi / 2 by ring, Real.cos_pi_div_two,
        Real.sin_pi_div_two, Complex.I_re, Complex.I_im]

lemma rootsFill_inv4 :
    rootsFill (-(2 * Real.pi) / 4) 4 = [1, -Complex.I, 0, 0] := by
  rw [rootsFill, show List.range 4 = [0, 1, 2, 3] from rfl]
  simp only [List.map_cons, List.map_nil]
  norm_num
  constructor
  · apply Complex.ext <;> norm_num
  · apply Complex.ext <;>
      simp [show -(2 * Real.pi) / 4 = -(Real.pi / 2) by ring, Real.cos_neg, Real.sin_neg,
        Real.cos_pi_div_two, Real.sin_pi_div_two, Complex.I_re, Complex.I_im]

lemma bfly_fwd_delta : bflyI [1, Complex.I, 0, 0] 4 2 [1, 0, 0, 0] = [1, 1, 1, 1] := by
  simp [bflyI, bflyJ, bflyK, List.set]


lemma bfly_inv_flat : bflyI [1, -Complex.I, 0, 0] 4 2 [1, 1, 1, 1] = [4, 0, 0, 0] := by
  simp [bflyI, bflyJ, bflyK, List.set]
  norm_num

lemma bfly_fwd_e1 : bflyI [1, Complex.I, 0, 0] 4 2 [0, 1, 0, 0] = [1, -1, 1, -1] := by
  simp [bflyI, bflyJ, bflyK, List.set]

lemma bfly_inv_e1 : bflyI [1, -Complex.I, 0, 0] 4 2 [1, -1, 1, -1] =
    [0, 2 - 2 * Complex.I, 0, 2 + 2 * Complex.I] := by
  simp [bflyI, bflyJ, bflyK, List.set]
  constructor
  · ring
  · ring


lemma FFT_fwd_delta : FFT [] [1, 0, 0, 0] 1 = ([1, 1, 1, 1], [1, Complex.I, 0, 0]) := by
  simp only [FFT, List.length_cons, List.length_nil]
  norm_num [nextPow2_four]
  rw [rootsFill_fwd4, bitrevLoop_id 4 4 1 _ (by norm_num) (by norm_num)]
  exact ⟨bfly_fwd_delta, rfl⟩

lemma FFT_inv_flat : FFT [1, Complex.I, 0, 0] [1, 1, 1, 1] (-1) =
    ([1, 0, 0, 0], [1, -Complex.I, 0, 0]) := by
  simp only [FFT, List.length_cons, List.length_nil]
  norm_num [nextPow2_four]
  rw [rootsFill_inv4, bitrevLoop_id 4 4 1 _ (by norm_num) (by norm_num), bfly_inv_flat]
  refine ⟨?_, rfl⟩
  norm_num


lemma FFT_fwd_e1 : FFT [] [0, 1, 0] 1 = ([1, -1, 1, -1], [1, Complex.I, 0, 0]) := by
  simp only [FFT, List.length_cons, List.length_nil]
  norm_num [nextPow2_three]
  rw [rootsFill_fwd4, bitrevLoop_id 4 4 1 _ (by norm_num) (by norm_num)]
  exact ⟨bfly_fwd_e1, rfl⟩

lemma FFT_inv_e1 : FFT [1, Complex.I, 0, 0] [1, -1, 1, -1] (-1) =
    ([0, (1 - Complex.I) / 2, 0, (1 + Complex.I) / 2], [1, -Complex.I, 0, 0]) := by
  simp only [FFT, List.length_cons, List.length_nil]
  norm_num [nextPow2_four]
  rw [rootsFill_inv4, bitrevLoop_id 4 4 1 _ (by norm_num) (by norm_num), bfly_inv_e1]
  refine ⟨?_, rfl⟩
  simp only [List.map_cons, List.map_nil, List.cons.injEq]
  refine ⟨by norm_num, by ring, by norm_num, by ring, trivial⟩


/-- C9: starting from the initial (empty) root cache, the forward transform
of `[1,0,0,0]` overwrites it with `[1,1,1,1]`, and the inverse transform of
that result (with the cache state the first call left behind) returns
`[1,0,0,0]` — exactly, in the idealised real arithmetic. -/
theorem fft_impulse_roundtrip :
    FFT [] [1, 0, 0, 0] 1 = ([1, 1, 1, 1], [1, Complex.I, 0, 0]) ∧
    FFT [1, Complex.I, 0, 0] [1, 1, 1, 1] (-1) =
      ([1, 0, 0, 0], [1, -Complex.I, 0, 0]) :=
  ⟨FFT_fwd_delta, FFT_inv_flat⟩

/-- C8: the cache does NOT hold `N/2` values after a transform of internal
length `N = 4`, and a subsequent call with the same length does NOT reuse
it: `roots.resize(P.size())` makes the cache `N` long, so the guard
`roots.size() != N/2` is always true and the cache is rebuilt every call —
observably, the second (inverse) call of the same length replaces
`roots[1] = i` by `-i`. -/
theorem fft_root_cache_not_reused :
    (FFT [] [1, 0, 0, 0] 1).2 = [1, Complex.I, 0, 0] ∧
    ([1, Complex.I, 0, 0] : List ℂ).length = 4 ∧
    (4 : ℕ) ≠ nextPow2 4 / 2 ∧
    (FFT [1, Complex.I, 0, 0] [1, 1, 1, 1] (-1)).2 = [1, -Complex.I, 0, 0] ∧
    ([1, -Complex.I, 0, 0] : List ℂ) ≠ [1, Complex.I, 0, 0] := by
  refine ⟨by rw [FFT_fwd_delta], rfl, by rw [nextPow2_four]; norm_num, by rw [FFT_inv_flat], ?_⟩
  intro hc
  simp only [List.cons.injEq] at hc
  have h1 : -Complex.I = Complex.I := hc.2.1
  rw [Complex.ext_iff] at h1
  simp [Complex.I_re, Complex.I_im] at h1
  norm_num at h1

/-- C3: the forward-then-inverse round trip does NOT reproduce the input
for length 3: for `S = [0,1,0]` (zero-padded to `[0,1,0,0]`), the code
returns `[0, (1-i)/2, 0, (1+i)/2]` — the bit-reversal permutation is a
no-op (see C2), so the butterfly stages do not compute the DFT. -/
theorem fft_roundtrip_len3_fails :
    FFT [] [0, 1, 0] 1 = ([1, -1, 1, -1], [1, Complex.I, 0, 0]) ∧
    FFT [1, Complex.I, 0, 0] [1, -1, 1, -1] (-1) =
      ([0, (1 - Complex.I) / 2, 0, (1 + Complex.I) / 2], [1, -Complex.I, 0, 0]) ∧
    ([0, (1 - Complex.I) / 2, 0, (1 + Complex.I) / 2] : List ℂ) ≠
      [0, 1, 0] ++ List.replicate 1 0 := by
  refine ⟨FFT_fwd_e1, FFT_inv_e1, ?_⟩
  intro hc
  simp only [List.cons_append, List.nil_append, List.replicate, List.cons.injEq] at hc
  have h1 : (1 - Complex.I) / 2 = 1 := hc.2.1
  rw [Complex.ext_iff] at h1
  norm_num at h1

end AlgebraH
